import Mathlib

/-!
Verification development for the SquarePostForward forwarder bot
(shallow embedding of src/main.py).

Text is modelled as `List Char`.  The regular expression
`BINANCE_LINK_PATTERN = r'(https://app\.binance\.com/uni-qr/cart/\d+)'`
is embedded as an explicit scanner: a match at a position is the literal
URL stem followed by a maximal nonempty run of digits (the greedy `\d+`;
`\d` is modelled as ASCII digits via `Char.isDigit`).  `re.search`,
`re.findall` and `re.sub` become `regexSearch`, `findAll` and `subAll`;
the latter two scan left to right over non-overlapping matches, resuming
after the end of each match, exactly as Python's `re` module does.
The scanners take the length of the input as fuel so that they are
structurally recursive and hence evaluable; each step consumes at least
one character, so the fuel never runs out.

Effectful parts of `handle_message` (QR generation, Telegram sends) are
modelled by boolean oracles (`Effects`), and the handler returns the
trace of attempted send calls together with the updated bot state.
-/

namespace SquarePostForward

/-- The literal part of `BINANCE_LINK_PATTERN` (main.py line 30),
before the `\d+` group. -/
def binanceUrlStem : List Char := "https://app.binance.com/uni-qr/cart/".toList

/-- `FORBIDDEN_WORDS` (main.py line 28).  Note: this list is defined in the
source but never referenced by `should_forward` or `handle_message`. -/
def FORBIDDEN_WORDS : List (List Char) :=
  ["big", "box", "#square", "#slot", "thxbox", "thx", "angelia"].map String.toList

/-- `VALID_NUMBERS` (main.py line 29). -/
def VALID_NUMBERS : List (List Char) :=
  ["USDT", "Answer:", "#square"].map String.toList

/-- Python's substring test `needle in hay` for strings. -/
def containsSub (needle : List Char) : List Char → Bool
  | [] => needle.isPrefixOf []
  | c :: cs => needle.isPrefixOf (c :: cs) || containsSub needle cs

/-- Attempt to match `BINANCE_LINK_PATTERN` at the start of `s`: the URL
stem followed by a maximal nonempty run of digits.  Returns the matched
text and the remainder of the input. -/
def matchAt (s : List Char) : Option (List Char × List Char) :=
  if binanceUrlStem.isPrefixOf s then
    let t := s.drop binanceUrlStem.length
    let ds := t.takeWhile Char.isDigit
    if ds = [] then none
    else some (binanceUrlStem ++ ds, t.dropWhile Char.isDigit)
  else none

/-- `BINANCE_LINK_PATTERN.search(s)` viewed as a boolean
(main.py line 78). -/
def regexSearch : List Char → Bool
  | [] => false
  | c :: cs => (matchAt (c :: cs)).isSome || regexSearch cs

/-- Fuelled worker for `findAll`. -/
def findAllF : Nat → List Char → List (List Char)
  | 0, _ => []
  | _ + 1, [] => []
  | f + 1, c :: cs =>
    match matchAt (c :: cs) with
    | some (m, r) => m :: findAllF f r
    | none => findAllF f cs

/-- `BINANCE_LINK_PATTERN.findall(s)` (main.py line 147): all
non-overlapping matches, scanned left to right. -/
def findAll (s : List Char) : List (List Char) := findAllF s.length s

/-- Fuelled worker for `subAll`. -/
def subAllF (repl : List Char) : Nat → List Char → List Char
  | 0, s => s
  | _ + 1, [] => []
  | f + 1, c :: cs =>
    match matchAt (c :: cs) with
    | some (_, r) => repl ++ subAllF repl f r
    | none => c :: subAllF repl f cs

/-- `BINANCE_LINK_PATTERN.sub(repl, s)` (main.py line 151): replace every
non-overlapping match by `repl` (the replacement strings used by the
source contain no backslash, so Python treats them literally). -/
def subAll (repl : List Char) (s : List Char) : List Char := subAllF repl s.length s

/-- `ForwarderBot.should_forward` (main.py lines 73-88).  `none` models an
absent (`None`) text; Python's `if not message_text` is false exactly for
`None` and the empty string. -/
def should_forward (message_text : Option (List Char)) : Bool :=
  match message_text with
  | none => false
  | some t =>
    if t = [] then false
    else
      let has_binance_link := regexSearch t
      let has_valid_number := VALID_NUMBERS.any fun num => containsSub num t
      has_binance_link && has_valid_number

/-- The link-rewriting cleanup step of `handle_message`
(main.py lines 146-154): when at least one link is found, every match is
replaced by the first captured link; otherwise the text is unchanged. -/
def clean_links (original_text : List Char) : List Char :=
  match findAll original_text with
  | [] => original_text
  | l0 :: _ => subAll l0 original_text

/-- Outcome oracles for the effectful calls made in the dispatch loop,
indexed by the loop iteration: whether `generate_qr_code` succeeds, and
whether the Telegram send call succeeds. -/
structure Effects where
  qrOk : Nat → Bool
  sendOk : Nat → Bool

/-- Payload of an outbound send: `send_file` with a QR image of the given
URL and a caption, or `send_message` with plain text.  Both carry the
`link_preview` flag passed to the client. -/
inductive Payload where
  | file (qrUrl : List Char) (caption : List Char) (linkPreview : Bool)
  | msg (message : List Char) (linkPreview : Bool)
deriving DecidableEq

/-- One attempted send call: the target channel, the payload, and whether
the call succeeded. -/
structure SendCall where
  target : Int
  payload : Payload
  ok : Bool
deriving DecidableEq

/-- The mutable bot state touched by `handle_message`:
`self.target_channels` and `self.forwarded_messages` (main.py lines 44-49;
the Python `set` is modelled as a duplicate-free-by-insertion list). -/
structure BotState where
  target_channels : List Int
  forwarded_messages : List Nat
deriving DecidableEq

/-- An inbound Telegram message event, as read by `handle_message`. -/
structure InboundMessage where
  id : Nat
  chat_id : Int
  text : Option (List Char)
deriving DecidableEq

/-- The per-target dispatch loop of `handle_message`
(main.py lines 156-184).  For each target, inside a try/except block:
if links were found, `generate_qr_code` is called first (its failure
aborts the iteration before any send) and on success the QR image is sent
with the cleaned text as caption and `link_preview=True`; otherwise the
cleaned text is sent as a plain message with `link_preview=True`.  After a
successful send the message id is added to `forwarded_messages`; any
exception is logged and the loop continues with the next target. -/
def dispatchLoop (eff : Effects) (links : List (List Char)) (cleaned : List Char)
    (messageId : Nat) : Nat → List Int → List Nat → List SendCall × List Nat
  | _, [], fwd => ([], fwd)
  | i, target :: rest, fwd =>
    match links with
    | l0 :: _ =>
      if eff.qrOk i then
        let call : SendCall := ⟨target, Payload.file l0 cleaned true, eff.sendOk i⟩
        let fwd' := if eff.sendOk i then fwd.insert messageId else fwd
        let next := dispatchLoop eff links cleaned messageId (i + 1) rest fwd'
        (call :: next.1, next.2)
      else
        dispatchLoop eff links cleaned messageId (i + 1) rest fwd
    | [] =>
      let call : SendCall := ⟨target, Payload.msg cleaned true, eff.sendOk i⟩
      let fwd' := if eff.sendOk i then fwd.insert messageId else fwd
      let next := dispatchLoop eff links cleaned messageId (i + 1) rest fwd'
      (call :: next.1, next.2)

/-- `ForwarderBot.handle_message` (main.py lines 130-189): drop messages
with no text, drop messages whose id is already in `forwarded_messages`,
test `should_forward`, rewrite the links, and run the dispatch loop.
Returns the trace of attempted send calls and the updated state. -/
def handle_message (eff : Effects) (st : BotState) (msg : InboundMessage) :
    List SendCall × BotState :=
  match msg.text with
  | none => ([], st)
  | some t =>
    if t = [] then ([], st)
    else if msg.id ∈ st.forwarded_messages then ([], st)
    else if should_forward (some t) then
      let binance_links := findAll t
      let cleaned_text := clean_links t
      let r := dispatchLoop eff binance_links cleaned_text msg.id 0
        st.target_channels st.forwarded_messages
      (r.1, { st with forwarded_messages := r.2 })
    else ([], st)

/-- The `link_preview` flag carried by a payload. -/
def payloadPreview : Payload → Bool
  | Payload.file _ _ p => p
  | Payload.msg _ p => p

/-- The first character of `s`, if any, is not a digit. -/
def headNotDigit (s : List Char) : Prop :=
  ∀ c, s.head? = some c → c.isDigit = false

/-- `repl` has the shape of a full match of the link pattern: the URL stem
followed by a nonempty run of digits. -/
def GoodRepl (repl : List Char) : Prop :=
  ∃ ds, ds ≠ [] ∧ (∀ c ∈ ds, c.isDigit = true) ∧ repl = binanceUrlStem ++ ds

/- Concrete sample data used by counterexamples and witnesses. -/

/-- A qualifying text that also contains the forbidden word `box` as a
standalone token. -/
def sampleBoxText : List Char :=
  "DOGE Answer: 42 box https://app.binance.com/uni-qr/cart/12345".toList

/-- A concrete link matching the pattern. -/
def binanceLink12345 : List Char :=
  "https://app.binance.com/uni-qr/cart/12345".toList

/-- A text containing two identical occurrences of the required link. -/
def dupLinkText : List Char :=
  "https://app.binance.com/uni-qr/cart/12345 https://app.binance.com/uni-qr/cart/12345".toList

/-- A qualifying text with a single link and the `USDT` marker. -/
def qualifyingText : List Char :=
  "USDT https://app.binance.com/uni-qr/cart/777".toList

/-- The link contained in `qualifyingText`. -/
def link777 : List Char := "https://app.binance.com/uni-qr/cart/777".toList

/-- A bot state with one target channel and an empty dedup set. -/
def st0 : BotState := ⟨[-1002767963315], []⟩

/-- A bot state whose dedup set already contains message id 100. -/
def stSeen : BotState := ⟨[-1002767963315], [100]⟩

/-- A qualifying inbound message with id 100. -/
def msg0 : InboundMessage := ⟨100, -1002804941127, some qualifyingText⟩

/-- The same message id arriving from a different source channel. -/
def msg0' : InboundMessage := ⟨100, -1002327293945, some qualifyingText⟩

/-- Effects: QR generation always fails, sends would succeed. -/
def effQrFail : Effects := ⟨fun _ => false, fun _ => true⟩

/-- Effects: everything succeeds. -/
def effAllOk : Effects := ⟨fun _ => true, fun _ => true⟩

/-- Effects: QR generation succeeds, every send fails. -/
def effSendFail : Effects := ⟨fun _ => true, fun _ => false⟩

/-- Effects: QR generation succeeds, the send at loop index 0 fails and the
send at loop index 1 succeeds. -/
def effSecondOk : Effects := ⟨fun _ => true, fun k => k == 1⟩

/-! ### Basic helper lemmas -/

theorem stem_len : binanceUrlStem.length = 36 := by decide

theorem headNotDigit_cons_elim {c : Char} {cs : List Char} (h : headNotDigit (c :: cs)) :
    c.isDigit = false := h c rfl

theorem headNotDigit_cons {c : Char} {cs : List Char} (h : c.isDigit = false) :
    headNotDigit (c :: cs) := by
  intro d hd
  simp only [List.head?] at hd
  injection hd with h'
  rw [← h']
  exact h

theorem head_dropWhile_false (p : Char → Bool) :
    ∀ (l : List Char) (c : Char), (l.dropWhile p).head? = some c → p c = false := by
  intro l
  induction l with
  | nil => intro c h; simp [List.dropWhile] at h
  | cons a as ih =>
    intro c h
    rw [List.dropWhile_cons] at h
    by_cases hpa : p a = true
    · rw [if_pos hpa] at h; exact ih c h
    · rw [if_neg hpa] at h
      simp only [List.head?] at h
      injection h with h'
      rw [← h']
      cases hq : p a
      · rfl
      · exact absurd hq hpa

theorem mem_takeWhile (p : Char → Bool) :
    ∀ (l : List Char) (c : Char), c ∈ l.takeWhile p → p c = true := by
  intro l
  induction l with
  | nil => intro c h; simp [List.takeWhile] at h
  | cons a as ih =>
    intro c h
    rw [List.takeWhile_cons] at h
    by_cases hpa : p a = true
    · rw [if_pos hpa] at h
      rcases List.mem_cons.mp h with h1 | h2
      · rw [h1]; exact hpa
      · exact ih c h2
    · rw [if_neg hpa] at h; simp at h

theorem takeWhile_all_append (p : Char → Bool) :
    ∀ (ds X : List Char), (∀ c ∈ ds, p c = true) → (∀ c, X.head? = some c → p c = false) →
      (ds ++ X).takeWhile p = ds ∧ (ds ++ X).dropWhile p = X := by
  intro ds
  induction ds with
  | nil =>
    intro X _ hX
    simp only [List.nil_append]
    cases X with
    | nil => exact ⟨rfl, rfl⟩
    | cons x xs =>
      have hx : p x = false := hX x rfl
      rw [List.takeWhile_cons, List.dropWhile_cons]
      simp [hx]
  | cons d ds ih =>
    intro X hds hX
    have hd : p d = true := hds d (List.mem_cons_self d ds)
    have hrec := ih X (fun c hc => hds c (List.mem_cons_of_mem d hc)) hX
    rw [List.cons_append, List.takeWhile_cons, List.dropWhile_cons]
    simp [hd, hrec.1, hrec.2]

theorem isPrefixOf_append_self (p t : List Char) : p.isPrefixOf (p ++ t) = true :=
  List.isPrefixOf_iff_prefix.mpr (List.prefix_append p t)

theorem isPrefixOf_exists {p s : List Char} (h : p.isPrefixOf s = true) :
    ∃ u, s = p ++ u := by
  obtain ⟨u, hu⟩ := List.isPrefixOf_iff_prefix.mp h
  exact ⟨u, hu.symm⟩

theorem isPrefixOf_append_left :
    ∀ (p x y : List Char), p.length ≤ x.length → p.isPrefixOf (x ++ y) = p.isPrefixOf x
  | [], _, _, _ => by simp [List.isPrefixOf]
  | a :: as, [], _, h => by simp at h
  | a :: as, b :: bs, y, h => by
    rw [List.cons_append]
    show (a == b && as.isPrefixOf (bs ++ y)) = (a == b && as.isPrefixOf bs)
    rw [isPrefixOf_append_left as bs y (by
      simp only [List.length_cons] at h
      omega)]

theorem drop_append_le {n : Nat} {x : List Char} (y : List Char) (h : n ≤ x.length) :
    (x ++ y).drop n = x.drop n ++ y := by
  rw [List.drop_append_eq_append_drop, Nat.sub_eq_zero_of_le h, List.drop_zero]

/-! ### Characterization of `matchAt` -/

theorem matchAt_nil : matchAt [] = none := by decide

theorem matchAt_some_spec {s m r : List Char} (h : matchAt s = some (m, r)) :
    ∃ ds, ds ≠ [] ∧ (∀ c ∈ ds, c.isDigit = true) ∧ m = binanceUrlStem ++ ds ∧
      s = binanceUrlStem ++ ds ++ r ∧ headNotDigit r := by
  simp only [matchAt] at h
  split at h
  case isTrue hp =>
    obtain ⟨u, hu⟩ := isPrefixOf_exists hp
    subst hu
    rw [List.drop_left] at h
    split at h
    case isTrue => exact absurd h (by simp)
    case isFalse hds =>
      simp only [Option.some.injEq, Prod.mk.injEq] at h
      obtain ⟨hm, hr⟩ := h
      refine ⟨u.takeWhile Char.isDigit, hds, ?_, hm.symm, ?_, ?_⟩
      · intro c hc
        exact mem_takeWhile Char.isDigit u c hc
      · rw [List.append_assoc, ← hr, List.takeWhile_append_dropWhile]
      · intro c hc
        rw [← hr] at hc
        exact head_dropWhile_false Char.isDigit u c hc
  case isFalse => exact absurd h (by simp)

theorem matchAt_good_append {ds X : List Char} (h1 : ds ≠ [])
    (h2 : ∀ c ∈ ds, c.isDigit = true) (hX : headNotDigit X) :
    matchAt (binanceUrlStem ++ ds ++ X) = some (binanceUrlStem ++ ds, X) := by
  have hw := takeWhile_all_append Char.isDigit ds X h2 (fun c hc => hX c hc)
  rw [List.append_assoc]
  simp only [matchAt]
  rw [List.drop_left]
  simp [isPrefixOf_append_self, hw.1, hw.2, h1]

theorem matchAt_some_len {s m r : List Char} (h : matchAt s = some (m, r)) :
    37 ≤ m.length ∧ s.length = m.length + r.length := by
  obtain ⟨ds, hne, _, hm, hs, _⟩ := matchAt_some_spec h
  have hpos : 0 < ds.length := List.length_pos.mpr hne
  constructor
  · rw [hm, List.length_append, stem_len]
    omega
  · rw [hs, hm, List.length_append]

theorem matchAt_append_none {x : List Char} (y y' : List Char) (hx : 37 ≤ x.length)
    (h : matchAt (x ++ y) = none) : matchAt (x ++ y') = none := by
  have h36 : binanceUrlStem.length ≤ x.length := by rw [stem_len]; omega
  by_cases hp : binanceUrlStem.isPrefixOf x = true
  · obtain ⟨c, z, hcz⟩ : ∃ c z, x.drop 36 = c :: z := by
      have hlen : 0 < (x.drop 36).length := by rw [List.length_drop]; omega
      cases hxz : x.drop 36 with
      | nil => rw [hxz] at hlen; simp at hlen
      | cons c z => exact ⟨c, z, rfl⟩
    have hdrop : ∀ w : List Char, (x ++ w).drop binanceUrlStem.length = c :: (z ++ w) := by
      intro w
      rw [stem_len, drop_append_le w (by omega), hcz, List.cons_append]
    have hpre : ∀ w : List Char, binanceUrlStem.isPrefixOf (x ++ w) = true := by
      intro w
      rw [isPrefixOf_append_left _ _ _ h36]
      exact hp
    have hc : c.isDigit = false := by
      cases hcc : c.isDigit
      · rfl
      · exfalso
        simp only [matchAt, hpre y, if_true, hdrop y] at h
        rw [List.takeWhile_cons, if_pos hcc] at h
        simp at h
    simp only [matchAt, hpre y', if_true, hdrop y']
    rw [List.takeWhile_cons, hc]
    simp
  · have hfalse : binanceUrlStem.isPrefixOf (x ++ y') = false := by
      rw [isPrefixOf_append_left _ _ _ h36]
      cases hq : binanceUrlStem.isPrefixOf x
      · rfl
      · exact absurd hq hp
    simp [matchAt, hfalse]

/-! ### Fuel irrelevance and unfolding equations for the scanners -/

theorem findAllF_congr : ∀ (f1 f2 : Nat) (s : List Char),
    s.length ≤ f1 → s.length ≤ f2 → findAllF f1 s = findAllF f2 s := by
  intro f1
  induction f1 with
  | zero =>
    intro f2 s h1 _
    obtain rfl : s = [] := by
      cases s with
      | nil => rfl
      | cons c cs => simp at h1
    cases f2 <;> rfl
  | succ g ih =>
    intro f2 s h1 h2
    cases s with
    | nil => cases f2 <;> rfl
    | cons c cs =>
      obtain ⟨g2, rfl⟩ : ∃ g2, f2 = g2 + 1 := by
        cases f2 with
        | zero => simp at h2
        | succ g2 => exact ⟨g2, rfl⟩
      have hcs1 : cs.length + 1 ≤ g + 1 := by simpa using h1
      have hcs2 : cs.length + 1 ≤ g2 + 1 := by simpa using h2
      simp only [findAllF]
      cases hm : matchAt (c :: cs) with
      | none => exact ih g2 cs (by omega) (by omega)
      | some mr =>
        obtain ⟨m, r⟩ := mr
        have hlen1 : 37 ≤ m.length := (matchAt_some_len hm).1
        have hlen2 : cs.length + 1 = m.length + r.length := by
          simpa using (matchAt_some_len hm).2
        show m :: findAllF g r = m :: findAllF g2 r
        rw [ih g2 r (by omega) (by omega)]

theorem subAllF_congr (repl : List Char) : ∀ (f1 f2 : Nat) (s : List Char),
    s.length ≤ f1 → s.length ≤ f2 → subAllF repl f1 s = subAllF repl f2 s := by
  intro f1
  induction f1 with
  | zero =>
    intro f2 s h1 _
    obtain rfl : s = [] := by
      cases s with
      | nil => rfl
      | cons c cs => simp at h1
    cases f2 <;> rfl
  | succ g ih =>
    intro f2 s h1 h2
    cases s with
    | nil => cases f2 <;> rfl
    | cons c cs =>
      obtain ⟨g2, rfl⟩ : ∃ g2, f2 = g2 + 1 := by
        cases f2 with
        | zero => simp at h2
        | succ g2 => exact ⟨g2, rfl⟩
      have hcs1 : cs.length + 1 ≤ g + 1 := by simpa using h1
      have hcs2 : cs.length + 1 ≤ g2 + 1 := by simpa using h2
      simp only [subAllF]
      cases hm : matchAt (c :: cs) with
      | none =>
        show c :: subAllF repl g cs = c :: subAllF repl g2 cs
        rw [ih g2 cs (by omega) (by omega)]
      | some mr =>
        obtain ⟨m, r⟩ := mr
        have hlen1 : 37 ≤ m.length := (matchAt_some_len hm).1
        have hlen2 : cs.length + 1 = m.length + r.length := by
          simpa using (matchAt_some_len hm).2
        show repl ++ subAllF repl g r = repl ++ subAllF repl g2 r
        rw [ih g2 r (by omega) (by omega)]

theorem findAll_nil : findAll [] = [] := rfl

theorem findAll_match_some {s m r : List Char} (h : matchAt s = some (m, r)) :
    findAll s = m :: findAll r := by
  cases s with
  | nil => rw [matchAt_nil] at h; exact absurd h (by simp)
  | cons c cs =>
    have hlen1 : 37 ≤ m.length := (matchAt_some_len h).1
    have hlen2 : cs.length + 1 = m.length + r.length := by
      simpa using (matchAt_some_len h).2
    show findAllF (cs.length + 1) (c :: cs) = m :: findAll r
    simp only [findAllF, h]
    rw [findAllF_congr cs.length r.length r (by omega) (by omega)]
    rfl

theorem findAll_match_none {c : Char} {cs : List Char} (h : matchAt (c :: cs) = none) :
    findAll (c :: cs) = findAll cs := by
  show findAllF (cs.length + 1) (c :: cs) = findAll cs
  simp only [findAllF, h]
  rfl

theorem subAll_nil (repl : List Char) : subAll repl [] = [] := rfl

theorem subAll_match_some {s m r : List Char} (repl : List Char)
    (h : matchAt s = some (m, r)) : subAll repl s = repl ++ subAll repl r := by
  cases s with
  | nil => rw [matchAt_nil] at h; exact absurd h (by simp)
  | cons c cs =>
    have hlen1 : 37 ≤ m.length := (matchAt_some_len h).1
    have hlen2 : cs.length + 1 = m.length + r.length := by
      simpa using (matchAt_some_len h).2
    show subAllF repl (cs.length + 1) (c :: cs) = repl ++ subAll repl r
    simp only [subAllF, h]
    rw [subAllF_congr repl cs.length r.length r (by omega) (by omega)]
    rfl

theorem subAll_match_none {c : Char} {cs : List Char} (repl : List Char)
    (h : matchAt (c :: cs) = none) : subAll repl (c :: cs) = c :: subAll repl cs := by
  show subAllF repl (cs.length + 1) (c :: cs) = c :: subAll repl cs
  simp only [subAllF, h]
  rfl

/-! ### Structure of `subAll` outputs and idempotence of the cleanup -/

theorem goodRepl_matchAt {repl X : List Char} (hg : GoodRepl repl) (hX : headNotDigit X) :
    matchAt (repl ++ X) = some (repl, X) := by
  obtain ⟨ds, hne, hdig, rfl⟩ := hg
  exact matchAt_good_append hne hdig hX

theorem goodRepl_cons {repl : List Char} (hg : GoodRepl repl) :
    ∃ z, repl = 'h' :: z := by
  obtain ⟨ds, _, _, rfl⟩ := hg
  have hstem : binanceUrlStem = 'h' :: "ttps://app.binance.com/uni-qr/cart/".toList := by
    decide
  rw [hstem, List.cons_append]
  exact ⟨_, rfl⟩

theorem headNotDigit_goodRepl_append {repl : List Char} (hg : GoodRepl repl)
    (w : List Char) : headNotDigit (repl ++ w) := by
  obtain ⟨z, rfl⟩ := goodRepl_cons hg
  rw [List.cons_append]
  exact headNotDigit_cons (by decide)

theorem headNotDigit_subAll {repl : List Char} (hg : GoodRepl repl) :
    ∀ s, headNotDigit s → headNotDigit (subAll repl s) := by
  intro s hs
  cases s with
  | nil => rw [subAll_nil]; exact hs
  | cons c cs =>
    cases hm : matchAt (c :: cs) with
    | some mr =>
      obtain ⟨m, r⟩ := mr
      rw [subAll_match_some repl hm]
      exact headNotDigit_goodRepl_append hg _
    | none =>
      rw [subAll_match_none repl hm]
      exact headNotDigit_cons (headNotDigit_cons_elim hs)

theorem subAll_agree {repl : List Char} (hg : GoodRepl repl) :
    ∀ s : List Char, subAll repl s = s ∨
      ∃ u t1 t2, s = (u ++ binanceUrlStem) ++ t1 ∧
        subAll repl s = (u ++ binanceUrlStem) ++ t2 := by
  intro s
  induction s with
  | nil => left; exact subAll_nil repl
  | cons c cs ih =>
    cases hm : matchAt (c :: cs) with
    | some mr =>
      obtain ⟨m, r⟩ := mr
      obtain ⟨ds, hne, hdig, hmeq, hseq, hr⟩ := matchAt_some_spec hm
      obtain ⟨dsr, _, _, hrepl⟩ := hg
      right
      refine ⟨[], ds ++ r, dsr ++ subAll repl r, ?_, ?_⟩
      · rw [List.nil_append, hseq, List.append_assoc]
      · rw [subAll_match_some repl hm, hrepl, List.nil_append, List.append_assoc]
    | none =>
      have h2 := subAll_match_none repl hm
      rcases ih with heq | ⟨u, t1, t2, e1, e2⟩
      · left; rw [h2, heq]
      · right
        refine ⟨c :: u, t1, t2, ?_, ?_⟩
        · rw [e1]; rfl
        · rw [h2, e2]; rfl

theorem matchAt_cons_subAll {repl : List Char} {c : Char} {cs : List Char}
    (hg : GoodRepl repl) (hm : matchAt (c :: cs) = none) :
    matchAt (c :: subAll repl cs) = none := by
  rcases subAll_agree hg cs with heq | ⟨u, t1, t2, e1, e2⟩
  · rw [heq]; exact hm
  · rw [e2]
    show matchAt ((c :: (u ++ binanceUrlStem)) ++ t2) = none
    apply matchAt_append_none t1 t2
    · simp only [List.length_cons, List.length_append, stem_len]
      omega
    · show matchAt (c :: ((u ++ binanceUrlStem) ++ t1)) = none
      rw [← e1]
      exact hm

theorem subAll_stable {repl : List Char} (hg : GoodRepl repl) :
    ∀ s : List Char, findAll (subAll repl s) = (findAll s).map (fun _ => repl) ∧
      subAll repl (subAll repl s) = subAll repl s := by
  have main : ∀ (n : Nat) (s : List Char), s.length ≤ n →
      findAll (subAll repl s) = (findAll s).map (fun _ => repl) ∧
        subAll repl (subAll repl s) = subAll repl s := by
    intro n
    induction n with
    | zero =>
      intro s hs
      obtain rfl : s = [] := by
        cases s with
        | nil => rfl
        | cons c cs => simp at hs
      simp [subAll_nil, findAll_nil]
    | succ g ih =>
      intro s hs
      cases s with
      | nil => simp [subAll_nil, findAll_nil]
      | cons c cs =>
        cases hm : matchAt (c :: cs) with
        | some mr =>
          obtain ⟨m, r⟩ := mr
          obtain ⟨ds, hne, hdig, hmeq, hseq, hr⟩ := matchAt_some_spec hm
          have h1 : subAll repl (c :: cs) = repl ++ subAll repl r :=
            subAll_match_some repl hm
          have hr' : headNotDigit (subAll repl r) := headNotDigit_subAll hg r hr
          have h2 : matchAt (repl ++ subAll repl r) = some (repl, subAll repl r) :=
            goodRepl_matchAt hg hr'
          have hlen1 : 37 ≤ m.length := (matchAt_some_len hm).1
          have hlen2 : cs.length + 1 = m.length + r.length := by
            simpa using (matchAt_some_len hm).2
          have hcs : cs.length + 1 ≤ g + 1 := by simpa using hs
          have ihr := ih r (by omega)
          constructor
          · rw [h1, findAll_match_some h2, ihr.1, findAll_match_some hm]
            rfl
          · rw [h1, subAll_match_some repl h2, ihr.2]
        | none =>
          have h1 : subAll repl (c :: cs) = c :: subAll repl cs :=
            subAll_match_none repl hm
          have h2 : matchAt (c :: subAll repl cs) = none := matchAt_cons_subAll hg hm
          have hcs : cs.length + 1 ≤ g + 1 := by simpa using hs
          have ihcs := ih cs (by omega)
          constructor
          · rw [h1, findAll_match_none h2, ihcs.1, findAll_match_none hm]
          · rw [h1, subAll_match_none repl h2, ihcs.2]
  intro s
  exact main s.length s (Nat.le_refl _)

theorem findAll_head_good :
    ∀ (s m : List Char) (ls : List (List Char)), findAll s = m :: ls → GoodRepl m := by
  intro s
  induction s with
  | nil =>
    intro m ls h
    rw [findAll_nil] at h
    exact absurd h (by simp)
  | cons c cs ih =>
    intro m ls h
    cases hm : matchAt (c :: cs) with
    | some mr =>
      obtain ⟨m', r⟩ := mr
      rw [findAll_match_some hm] at h
      obtain ⟨ds, hne, hdig, hmeq, _, _⟩ := matchAt_some_spec hm
      injection h with he _
      rw [← he, hmeq]
      exact ⟨ds, hne, hdig, rfl⟩
    | none =>
      rw [findAll_match_none hm] at h
      exact ih m ls h

/-! ### Unfolding equations and invariants of the dispatch loop -/

theorem dispatchLoop_nil_ts (eff : Effects) (links : List (List Char)) (cleaned : List Char)
    (id : Nat) (i : Nat) (fwd : List Nat) :
    dispatchLoop eff links cleaned id i [] fwd = ([], fwd) := by
  cases links <;> rfl

theorem dispatchLoop_cons_file {eff : Effects} {l0 : List Char} {ls : List (List Char)}
    {cleaned : List Char} {id : Nat} {i : Nat} {t : Int} {ts : List Int} {fwd : List Nat}
    (h : eff.qrOk i = true) :
    dispatchLoop eff (l0 :: ls) cleaned id i (t :: ts) fwd =
      ((⟨t, Payload.file l0 cleaned true, eff.sendOk i⟩ : SendCall) ::
        (dispatchLoop eff (l0 :: ls) cleaned id (i + 1) ts
          (if eff.sendOk i then fwd.insert id else fwd)).1,
       (dispatchLoop eff (l0 :: ls) cleaned id (i + 1) ts
          (if eff.sendOk i then fwd.insert id else fwd)).2) := by
  simp only [dispatchLoop, h, if_true]

theorem dispatchLoop_cons_qrfail {eff : Effects} {l0 : List Char} {ls : List (List Char)}
    {cleaned : List Char} {id : Nat} {i : Nat} {t : Int} {ts : List Int} {fwd : List Nat}
    (h : eff.qrOk i = false) :
    dispatchLoop eff (l0 :: ls) cleaned id i (t :: ts) fwd =
      dispatchLoop eff (l0 :: ls) cleaned id (i + 1) ts fwd := by
  simp only [dispatchLoop, h, Bool.false_eq_true, if_false]

theorem dispatchLoop_cons_text {eff : Effects} {cleaned : List Char} {id : Nat} {i : Nat}
    {t : Int} {ts : List Int} {fwd : List Nat} :
    dispatchLoop eff [] cleaned id i (t :: ts) fwd =
      ((⟨t, Payload.msg cleaned true, eff.sendOk i⟩ : SendCall) ::
        (dispatchLoop eff [] cleaned id (i + 1) ts
          (if eff.sendOk i then fwd.insert id else fwd)).1,
       (dispatchLoop eff [] cleaned id (i + 1) ts
          (if eff.sendOk i then fwd.insert id else fwd)).2) := by
  simp only [dispatchLoop]

theorem dispatchLoop_mem (eff : Effects) (links : List (List Char)) (cleaned : List Char)
    (id : Nat) : ∀ (ts : List Int) (i : Nat) (fwd : List Nat) (a : Nat),
    a ∈ fwd → a ∈ (dispatchLoop eff links cleaned id i ts fwd).2 := by
  intro ts
  induction ts with
  | nil =>
    intro i fwd a ha
    rw [dispatchLoop_nil_ts]
    exact ha
  | cons t ts ih =>
    intro i fwd a ha
    have ha' : a ∈ (if eff.sendOk i then fwd.insert id else fwd) := by
      cases eff.sendOk i with
      | true => simpa using List.mem_insert_of_mem ha
      | false => simpa using ha
    cases links with
    | nil =>
      rw [dispatchLoop_cons_text]
      exact ih (i + 1) _ a ha'
    | cons l0 ls =>
      cases hqr : eff.qrOk i with
      | true =>
        rw [dispatchLoop_cons_file hqr]
        exact ih (i + 1) _ a ha'
      | false =>
        rw [dispatchLoop_cons_qrfail hqr]
        exact ih (i + 1) fwd a ha

theorem dispatchLoop_snd (eff : Effects) (links : List (List Char)) (cleaned : List Char)
    (id : Nat) : ∀ (ts : List Int) (i : Nat) (fwd : List Nat),
    (dispatchLoop eff links cleaned id i ts fwd).2 =
      if (dispatchLoop eff links cleaned id i ts fwd).1.any (fun c => c.ok) then
        fwd.insert id
      else fwd := by
  intro ts
  induction ts with
  | nil =>
    intro i fwd
    rw [dispatchLoop_nil_ts]
    simp
  | cons t ts ih =>
    intro i fwd
    have hstep : ∀ tgt : Int, ∀ p : Payload,
        ((dispatchLoop eff links cleaned id (i + 1) ts
            (if eff.sendOk i then fwd.insert id else fwd)).2 =
          if ((⟨tgt, p, eff.sendOk i⟩ : SendCall) ::
              (dispatchLoop eff links cleaned id (i + 1) ts
                (if eff.sendOk i then fwd.insert id else fwd)).1).any (fun c => c.ok) then
            fwd.insert id
          else fwd) := by
      intro tgt p
      rw [ih (i + 1) (if eff.sendOk i then fwd.insert id else fwd)]
      cases hsend : eff.sendOk i with
      | true =>
        simp only [if_true, List.any_cons, hsend, Bool.true_or, if_pos]
        rw [List.insert_of_mem (List.mem_insert_self id fwd)]
        cases (dispatchLoop eff links cleaned id (i + 1) ts (fwd.insert id)).1.any
            (fun c => c.ok) with
        | true => simp
        | false => simp
      | false =>
        simp only [Bool.false_eq_true, if_false, List.any_cons, hsend, Bool.false_or]
    cases links with
    | nil =>
      rw [dispatchLoop_cons_text]
      exact hstep t (Payload.msg cleaned true)
    | cons l0 ls =>
      cases hqr : eff.qrOk i with
      | true =>
        rw [dispatchLoop_cons_file hqr]
        exact hstep t (Payload.file l0 cleaned true)
      | false =>
        rw [dispatchLoop_cons_qrfail hqr]
        exact ih (i + 1) fwd

theorem dispatchLoop_targets (eff : Effects) (links : List (List Char)) (cleaned : List Char)
    (id : Nat) (hq : links = [] ∨ ∀ j, eff.qrOk j = true) :
    ∀ (ts : List Int) (i : Nat) (fwd : List Nat),
    (dispatchLoop eff links cleaned id i ts fwd).1.map (fun c => c.target) = ts := by
  intro ts
  induction ts with
  | nil =>
    intro i fwd
    rw [dispatchLoop_nil_ts]
    rfl
  | cons t ts ih =>
    intro i fwd
    cases links with
    | nil =>
      rw [dispatchLoop_cons_text, List.map_cons, ih (i + 1) _]
    | cons l0 ls =>
      have hqr : eff.qrOk i = true := by
        rcases hq with hq | hq
        · exact absurd hq (by simp)
        · exact hq i
      rw [dispatchLoop_cons_file hqr, List.map_cons, ih (i + 1) _]

theorem dispatchLoop_success_mem (eff : Effects) (links : List (List Char))
    (cleaned : List Char) (id : Nat) (hq : links = [] ∨ ∀ j, eff.qrOk j = true) :
    ∀ (ts : List Int) (i : Nat) (fwd : List Nat) (k : Nat), k < ts.length →
    eff.sendOk (i + k) = true → id ∈ (dispatchLoop eff links cleaned id i ts fwd).2 := by
  intro ts
  induction ts with
  | nil =>
    intro i fwd k hk _
    simp at hk
  | cons t ts ih =>
    intro i fwd k hk hsend
    have hrec : id ∈ (dispatchLoop eff links cleaned id (i + 1) ts
        (if eff.sendOk i then fwd.insert id else fwd)).2 := by
      cases k with
      | zero =>
        have h0 : eff.sendOk i = true := by simpa using hsend
        rw [h0, if_pos rfl]
        exact dispatchLoop_mem eff links cleaned id ts (i + 1) _ id
          (List.mem_insert_self id fwd)
      | succ k' =>
        have hk' : k' < ts.length := by simpa using hk
        have hsend' : eff.sendOk (i + 1 + k') = true := by
          have : i + 1 + k' = i + (k' + 1) := by omega
          rw [this]
          exact hsend
        exact ih (i + 1) _ k' hk' hsend'
    cases links with
    | nil =>
      rw [dispatchLoop_cons_text]
      exact hrec
    | cons l0 ls =>
      have hqr : eff.qrOk i = true := by
        rcases hq with hq | hq
        · exact absurd hq (by simp)
        · exact hq i
      rw [dispatchLoop_cons_file hqr]
      exact hrec

theorem dispatchLoop_preview (eff : Effects) (links : List (List Char)) (cleaned : List Char)
    (id : Nat) : ∀ (ts : List Int) (i : Nat) (fwd : List Nat) (c : SendCall),
    c ∈ (dispatchLoop eff links cleaned id i ts fwd).1 → payloadPreview c.payload = true := by
  intro ts
  induction ts with
  | nil =>
    intro i fwd c hc
    rw [dispatchLoop_nil_ts] at hc
    simp at hc
  | cons t ts ih =>
    intro i fwd c hc
    cases links with
    | nil =>
      rw [dispatchLoop_cons_text] at hc
      rcases List.mem_cons.mp hc with h1 | h2
      · rw [h1]; rfl
      · exact ih (i + 1) _ c h2
    | cons l0 ls =>
      cases hqr : eff.qrOk i with
      | true =>
        rw [dispatchLoop_cons_file hqr] at hc
        rcases List.mem_cons.mp hc with h1 | h2
        · rw [h1]; rfl
        · exact ih (i + 1) _ c h2
      | false =>
        rw [dispatchLoop_cons_qrfail hqr] at hc
        exact ih (i + 1) fwd c hc

/-! ### Invariants of `handle_message` -/

theorem handle_dropped (eff : Effects) (st : BotState) (msg : InboundMessage)
    (h : msg.id ∈ st.forwarded_messages) : handle_message eff st msg = ([], st) := by
  cases hmt : msg.text with
  | none => simp [handle_message, hmt]
  | some t =>
    by_cases ht : t = []
    · simp [handle_message, hmt, ht]
    · simp [handle_message, hmt, ht, h]

theorem handle_snd_eq (eff : Effects) (st : BotState) (msg : InboundMessage) :
    (handle_message eff st msg).2.forwarded_messages =
      if (handle_message eff st msg).1.any (fun c => c.ok) then
        st.forwarded_messages.insert msg.id
      else st.forwarded_messages := by
  cases hmt : msg.text with
  | none => simp [handle_message, hmt]
  | some t =>
    by_cases ht : t = []
    · simp [handle_message, hmt, ht]
    · by_cases hmem : msg.id ∈ st.forwarded_messages
      · simp [handle_message, hmt, ht, hmem]
      · by_cases hsf : should_forward (some t) = true
        · simp only [handle_message, hmt, if_neg ht, if_neg hmem, if_pos hsf]
          exact dispatchLoop_snd eff (findAll t) (clean_links t) msg.id
            st.target_channels 0 st.forwarded_messages
        · simp [handle_message, hmt, ht, hmem, hsf]

theorem handle_state_unchanged (eff : Effects) (st : BotState) (msg : InboundMessage)
    (h : (handle_message eff st msg).1.any (fun c => c.ok) = false) :
    (handle_message eff st msg).2 = st := by
  have hfw : (handle_message eff st msg).2.forwarded_messages = st.forwarded_messages := by
    rw [handle_snd_eq, h]
    simp
  have htc : (handle_message eff st msg).2.target_channels = st.target_channels := by
    cases hmt : msg.text with
    | none => simp [handle_message, hmt]
    | some t =>
      by_cases ht : t = []
      · simp [handle_message, hmt, ht]
      · by_cases hmem : msg.id ∈ st.forwarded_messages
        · simp [handle_message, hmt, ht, hmem]
        · by_cases hsf : should_forward (some t) = true
          · simp [handle_message, hmt, ht, hmem, hsf]
          · simp [handle_message, hmt, ht, hmem, hsf]
  obtain ⟨tc, fm⟩ := st
  cases hh : (handle_message eff ⟨tc, fm⟩ msg).2 with
  | mk tc' fm' =>
    rw [hh] at hfw htc
    simp only at hfw htc
    rw [hfw, htc]

/-! ### Claim theorems -/

/-- Claim C1, counterexample.  The concrete text `sampleBoxText` contains the
forbidden term `box` as a standalone whitespace-delimited token (and `box` is
in `FORBIDDEN_WORDS`), together with the required link and the `Answer:`
marker, yet `should_forward` returns true — refuting the claim that any
whole-word forbidden term forces a false result. -/
theorem C1_counterexample :
    "box".toList ∈ FORBIDDEN_WORDS ∧
    containsSub " box ".toList sampleBoxText = true ∧
    should_forward (some sampleBoxText) = true := by
  refine ⟨by decide, by decide, by decide⟩

/-- Claim C1, amended.  `should_forward` performs no forbidden-term check at
all: for every text that contains a forbidden term (here witnessed as a plain
substring, which covers whole-word occurrences), it still returns true
whenever the required link pattern matches and some valid marker is
present. -/
theorem C1_forbidden_terms_ignored (t w : List Char) (hw : w ∈ FORBIDDEN_WORDS)
    (hsub : containsSub w t = true) (hlink : regexSearch t = true)
    (hmark : (VALID_NUMBERS.any fun num => containsSub num t) = true) :
    should_forward (some t) = true := by
  have ht : t ≠ [] := by
    intro h
    rw [h] at hlink
    exact absurd hlink (by decide)
  simp [should_forward, ht, hlink, hmark]

/-- Claim C1, witness for the amended theorem at the concrete input. -/
theorem C1_witness : should_forward (some sampleBoxText) = true :=
  C1_forbidden_terms_ignored sampleBoxText "box".toList (by decide) (by decide)
    (by decide) (by decide)

/-- Claim C2, counterexample.  `dupLinkText` contains two identical
occurrences of the required link; the transformed output still contains two
pattern matches, not exactly one — refuting the de-duplication claim. -/
theorem C2_counterexample :
    findAll dupLinkText = [binanceLink12345, binanceLink12345] ∧
    (findAll (clean_links dupLinkText)).length = 2 := by
  refine ⟨by decide, by decide⟩

/-- Claim C2, amended.  The transform does not de-duplicate: it replaces
every occurrence of the link pattern by the first captured link, so the
output contains exactly as many link occurrences as the input, each equal to
the first captured link. -/
theorem C2_links_canonicalized (t l0 : List Char) (ls : List (List Char))
    (h : findAll t = l0 :: ls) :
    findAll (clean_links t) = (l0 :: ls).map (fun _ => l0) := by
  have hg : GoodRepl l0 := findAll_head_good t l0 ls h
  have hcl : clean_links t = subAll l0 t := by
    simp only [clean_links, h]
  rw [hcl, (subAll_stable hg t).1, h]

/-- Claim C2, witness for the amended theorem at the concrete input. -/
theorem C2_witness :
    findAll (clean_links dupLinkText) =
      ([binanceLink12345, binanceLink12345] : List (List Char)).map
        (fun _ => binanceLink12345) :=
  C2_links_canonicalized dupLinkText binanceLink12345 [binanceLink12345] (by decide)

/-- Claim C3, counterexample.  For a qualifying message with a link, when QR
generation fails (`effQrFail`), `handle_message` sends nothing at all to the
destination — there is no fallback to a text-only send; the exception is
merely caught, so the claim of a text fallback is refuted. -/
theorem C3_counterexample :
    should_forward (some qualifyingText) = true ∧
    findAll qualifyingText = [link777] ∧
    handle_message effQrFail st0 msg0 = ([], st0) := by
  refine ⟨by decide, by decide, by decide⟩

/-- Claim C3, amended.  When QR generation fails for the current destination,
the per-destination exception handler swallows the failure: no send of any
kind is made to that destination, and the loop simply continues with the
remaining destinations. -/
theorem C3_qr_failure_skips_destination (eff : Effects) (l0 : List Char)
    (ls : List (List Char)) (cleaned : List Char) (id i : Nat) (t : Int)
    (ts : List Int) (fwd : List Nat) (h : eff.qrOk i = false) :
    dispatchLoop eff (l0 :: ls) cleaned id i (t :: ts) fwd =
      dispatchLoop eff (l0 :: ls) cleaned id (i + 1) ts fwd :=
  dispatchLoop_cons_qrfail h

/-- Claim C3, witness for the amended theorem at a concrete input. -/
theorem C3_witness :
    dispatchLoop effQrFail [link777] qualifyingText 100 0 [-1002767963315] [] =
      dispatchLoop effQrFail [link777] qualifyingText 100 1 [] [] :=
  C3_qr_failure_skips_destination effQrFail link777 [] qualifyingText 100 0
    (-1002767963315) [] [] (by decide)

/-- Claim C4: `should_forward` returns false on absent text, on empty text,
on any text with no match of the required link pattern, and on any text with
none of the valid markers; and each of nonemptiness, link match and marker
presence is necessary for a true result. -/
theorem C4_should_forward_necessary :
    should_forward none = false ∧
    should_forward (some []) = false ∧
    (∀ t, regexSearch t = false → should_forward (some t) = false) ∧
    (∀ t, (VALID_NUMBERS.any fun num => containsSub num t) = false →
      should_forward (some t) = false) ∧
    (∀ t, should_forward (some t) = true →
      t ≠ [] ∧ regexSearch t = true ∧
        (VALID_NUMBERS.any fun num => containsSub num t) = true) := by
  refine ⟨rfl, rfl, ?_, ?_, ?_⟩
  · intro t h
    by_cases ht : t = []
    · simp [should_forward, ht]
    · simp [should_forward, ht, h]
  · intro t h
    by_cases ht : t = []
    · simp [should_forward, ht]
    · simp [should_forward, ht, h]
  · intro t h
    by_cases ht : t = []
    · rw [ht] at h
      exact absurd h (by decide)
    · simp only [should_forward, if_neg ht, Bool.and_eq_true] at h
      exact ⟨ht, h.1, h.2⟩

/-- Claim C4, witness: a text with a marker but no link is rejected, by the
third conjunct of the theorem. -/
theorem C4_witness : should_forward (some ("USDT but no link here".toList)) = false :=
  C4_should_forward_necessary.2.2.1 ("USDT but no link here".toList) (by decide)

/-- Claim C5, counterexample.  For a qualifying message forwarded as a QR
image, the (single) send call is a file send with `link_preview = true`:
the dispatcher does not disable link-preview generation, refuting the
claim. -/
theorem C5_counterexample :
    (handle_message effAllOk st0 msg0).1 =
      [⟨-1002767963315, Payload.file link777 qualifyingText true, true⟩] := by
  decide

/-- Claim C5, amended.  Every send made by the dispatch loop — image sends
included — passes `link_preview=True` to the messaging layer; link preview is
enabled, never disabled. -/
theorem C5_preview_always_enabled (eff : Effects) (links : List (List Char))
    (cleaned : List Char) (id : Nat) (ts : List Int) (i : Nat) (fwd : List Nat)
    (c : SendCall) (hc : c ∈ (dispatchLoop eff links cleaned id i ts fwd).1) :
    payloadPreview c.payload = true :=
  dispatchLoop_preview eff links cleaned id ts i fwd c hc

/-- Claim C5, witness for the amended theorem at a concrete input. -/
theorem C5_witness :
    payloadPreview
      (⟨-1002767963315, Payload.file link777 qualifyingText true, true⟩ : SendCall).payload
      = true :=
  C5_preview_always_enabled effAllOk [link777] qualifyingText 100 [-1002767963315] 0 []
    ⟨-1002767963315, Payload.file link777 qualifyingText true, true⟩ (by decide)

/-- Claim C6: provided QR generation does not abort an iteration (no links,
or QR generation succeeds everywhere), the dispatch loop attempts a send to
every destination in order regardless of which sends fail — a
per-destination failure never blocks the others — and the message id is
recorded in the dedup set as soon as any send succeeds (in particular on the
first successful send). -/
theorem C6_failure_isolation_and_dedup (eff : Effects) (links : List (List Char))
    (cleaned : List Char) (id : Nat) (ts : List Int) (fwd : List Nat)
    (hq : links = [] ∨ ∀ j, eff.qrOk j = true) :
    ((dispatchLoop eff links cleaned id 0 ts fwd).1.map (fun c => c.target) = ts) ∧
    (∀ k, k < ts.length → eff.sendOk k = true →
      id ∈ (dispatchLoop eff links cleaned id 0 ts fwd).2) := by
  constructor
  · exact dispatchLoop_targets eff links cleaned id hq ts 0 fwd
  · intro k hk hsend
    exact dispatchLoop_success_mem eff links cleaned id hq ts 0 fwd k hk
      (by simpa using hsend)

/-- Claim C6, witness: with two destinations where the send at index 0 fails
and the send at index 1 succeeds, both destinations are attempted and the
message id is recorded. -/
theorem C6_witness :
    ((dispatchLoop effSecondOk [link777] qualifyingText 100 0
        [-1002767963315, -1002361267520] []).1.map (fun c => c.target) =
      [-1002767963315, -1002361267520]) ∧
    100 ∈ (dispatchLoop effSecondOk [link777] qualifyingText 100 0
        [-1002767963315, -1002361267520] []).2 := by
  have h := C6_failure_isolation_and_dedup effSecondOk [link777] qualifyingText 100
    [-1002767963315, -1002361267520] [] (Or.inr (fun j => rfl))
  exact ⟨h.1, h.2 1 (by decide) (by decide)⟩

/-- Claim C7: an inbound message whose id is already in the dedup set is
dropped immediately — `handle_message` makes no send call and leaves the
state unchanged, for every effect oracle, state and message. -/
theorem C7_seen_message_dropped (eff : Effects) (st : BotState) (msg : InboundMessage)
    (h : msg.id ∈ st.forwarded_messages) : handle_message eff st msg = ([], st) :=
  handle_dropped eff st msg h

/-- Claim C7, witness at a concrete input. -/
theorem C7_witness : handle_message effAllOk stSeen msg0 = ([], stSeen) :=
  C7_seen_message_dropped effAllOk stSeen msg0 (by decide)

/-- Claim C8: the link-rewriting cleanup step is idempotent — applying it to
its own output yields the same text as applying it once (unconditionally, in
particular whenever no new forbidden term is introduced; the cleanup never
touches forbidden terms). -/
theorem C8_clean_links_idempotent (t : List Char) :
    clean_links (clean_links t) = clean_links t := by
  cases h : findAll t with
  | nil =>
    have h1 : clean_links t = t := by
      simp only [clean_links, h]
    rw [h1, h1]
  | cons l0 ls =>
    have hg : GoodRepl l0 := findAll_head_good t l0 ls h
    have h1 : clean_links t = subAll l0 t := by
      simp only [clean_links, h]
    have h2 : findAll (subAll l0 t) = l0 :: ls.map (fun _ => l0) := by
      rw [(subAll_stable hg t).1, h]
      rfl
    rw [h1]
    have h3 : clean_links (subAll l0 t) = subAll l0 (subAll l0 t) := by
      simp only [clean_links, h2]
    rw [h3, (subAll_stable hg t).2]

/-- Claim C9: the dedup set is updated exactly when a send succeeded — after
`handle_message`, the set equals the old set with the message id inserted if
at least one send call succeeded, and is unchanged otherwise; moreover if no
send succeeded the whole state is unchanged, so a re-delivered event for the
same message is processed again. -/
theorem C9_dedup_iff_send_success (eff : Effects) (st : BotState) (msg : InboundMessage) :
    ((handle_message eff st msg).2.forwarded_messages =
      if (handle_message eff st msg).1.any (fun c => c.ok) then
        st.forwarded_messages.insert msg.id
      else st.forwarded_messages) ∧
    ((handle_message eff st msg).1.any (fun c => c.ok) = false →
      (handle_message eff st msg).2 = st) :=
  ⟨handle_snd_eq eff st msg, fun h => handle_state_unchanged eff st msg h⟩

/-- Claim C9, witness: when every send fails, the state (and hence the dedup
set) is unchanged. -/
theorem C9_witness :
    (handle_message effSendFail st0 msg0).1.any (fun c => c.ok) = false ∧
    (handle_message effSendFail st0 msg0).2 = st0 :=
  ⟨by decide, (C9_dedup_iff_send_success effSendFail st0 msg0).2 (by decide)⟩

/-- Claim C10: deduplication is keyed on the message id alone — after a
message is forwarded with at least one successful send, any later message
with the same id, even from a different source channel and under different
effect outcomes, is dropped with no send call. -/
theorem C10_dedup_ignores_source_channel (eff eff' : Effects) (st : BotState)
    (m1 m2 : InboundMessage) (hid : m1.id = m2.id) (hchat : m1.chat_id ≠ m2.chat_id)
    (hsucc : (handle_message eff st m1).1.any (fun c => c.ok) = true) :
    handle_message eff' ((handle_message eff st m1).2) m2 =
      ([], (handle_message eff st m1).2) := by
  have h2 := handle_snd_eq eff st m1
  rw [hsucc] at h2
  simp only [if_pos] at h2
  apply handle_dropped
  rw [← hid, h2]
  exact List.mem_insert_self m1.id st.forwarded_messages

/-- Claim C10, witness: message id 100 forwarded from one channel; the same
id arriving from a different channel is dropped. -/
theorem C10_witness :
    handle_message effAllOk ((handle_message effAllOk st0 msg0).2) msg0' =
      ([], (handle_message effAllOk st0 msg0).2) :=
  C10_dedup_ignores_source_channel effAllOk effAllOk st0 msg0 msg0' rfl (by decide)
    (by decide)

end SquarePostForward
